import Mathlib

/-!
Verification of the uuencode/uudecode codec (`src/lib.rs` of `uuencode_lite_rs`).

The Rust source is shallowly embedded:
* bytes (`u8`) are `Nat` with explicit `% 256` wherever Rust wrapping occurs
  (`<<` on `u8` truncates, so `x << k` becomes `(x <<< k) % 256`);
* `checked_add` / `checked_sub` become explicit bound tests returning `Option`;
* Rust `String` output is modelled as a `List Nat` of character codes
  (every character pushed is ASCII);
* the `ok_or_decode_error!` macro (an early-returning `match`) becomes nested
  `match` expressions propagating the error constructor;
* `uudecode`'s inner loop reads groups of four characters via
  `chunk[..].copy_from_slice(&input_chunk)`, which PANICS when fewer than four
  characters remain; the panic is modelled by a dedicated `crash` outcome.
-/

/-- Error type of the codec: `UUEncodeError { line, character, msg }` from the
source, with the same three fields. -/
structure UUEncodeError where
  line : Nat
  character : Nat
  msg : String
deriving Repr, DecidableEq

/-- The message built by the `ok_or_decode_error!` macro:
`format!("Invalid character in input: {}", input as char)`. -/
def invalidMsg (c : Nat) : String :=
  "Invalid character in input: " ++ (Char.ofNat c).toString

/-- Embedding of `encode_char` (src/lib.rs:152-158): `0` maps to the backtick
glyph `0x60`; otherwise `value.checked_add(32)`, which on `u8` fails exactly
when `value + 32 > 255`. -/
def encode_char (value : Nat) : Option Nat :=
  if value = 0 then some 96
  else if value + 32 ≤ 255 then some (value + 32) else none

/-- Embedding of `decode_char` (src/lib.rs:162-168): backtick `0x60` and `0`
both map to `0`; otherwise `value.checked_sub(32)`, which on `u8` fails exactly
when `value < 32`. -/
def decode_char (value : Nat) : Option Nat :=
  if value = 96 ∨ value = 0 then some 0
  else if 32 ≤ value then some (value - 32) else none

/-- Embedding of `encoded_to_raw_len` (src/lib.rs:83-85), the capacity hint
`((encoded_len + 3) / 4) * 3` used to pre-size the decoder's output buffer. -/
def encoded_to_raw_len (encoded_len : Nat) : Nat :=
  ((encoded_len + 3) / 4) * 3

/-- Rust's `slice::chunks(n)` for `n ≥ 1`: consecutive chunks of `n` elements,
the last one possibly shorter, and no chunk at all for an empty slice. -/
def chunksList (n : Nat) : List α → List (List α)
  | [] => []
  | x :: xs => (x :: xs.take (n - 1)) :: chunksList n (xs.drop (n - 1))
termination_by l => l.length
decreasing_by simp [List.length_drop]; omega

/-- The three-byte buffer of the encoder (src/lib.rs:49,61-62): the chunk of at
most three bytes, zero-padded to exactly three (`buffer.fill(0)` followed by
`buffer[..len].copy_from_slice(chunk)`). -/
def padTo3 (chunk : List Nat) : Nat × Nat × Nat :=
  match chunk with
  | [] => (0, 0, 0)
  | [a] => (a, 0, 0)
  | [a, b] => (a, b, 0)
  | a :: b :: c :: _ => (a, b, c)

/-- Embedding of the encoder's inner loop (src/lib.rs:59-71): for every 3-byte
chunk of the line, emit four characters.  Rust's `(buffer[0] << 4)` on `u8`
wraps, hence the `% 256`; each unit is masked with `& 0x3F`.  The four error
positions are `cur_char`, `cur_char+1`, `cur_char+1`, `cur_char+2` as in the
source, and `cur_char` advances by the chunk's byte length. -/
def encodeLineGroups : List (List Nat) → Nat → Nat → Except UUEncodeError (List Nat)
  | [], _, _ => .ok []
  | c :: rest, line, cur_char =>
    let (b0, b1, b2) := padTo3 c
    match encode_char ((b0 >>> 2) &&& 63) with
    | none => .error ⟨line, cur_char, invalidMsg ((b0 >>> 2) &&& 63)⟩
    | some c0 =>
      match encode_char (((b0 <<< 4) % 256 ||| (b1 >>> 4)) &&& 63) with
      | none => .error ⟨line, cur_char + 1, invalidMsg (((b0 <<< 4) % 256 ||| (b1 >>> 4)) &&& 63)⟩
      | some c1 =>
        match encode_char (((b1 <<< 2) % 256 ||| (b2 >>> 6)) &&& 63) with
        | none => .error ⟨line, cur_char + 1, invalidMsg (((b1 <<< 2) % 256 ||| (b2 >>> 6)) &&& 63)⟩
        | some c2 =>
          match encode_char (b2 &&& 63) with
          | none => .error ⟨line, cur_char + 2, invalidMsg (b2 &&& 63)⟩
          | some c3 =>
            match encodeLineGroups rest line (cur_char + c.length) with
            | .error er => .error er
            | .ok tail => .ok (c0 :: c1 :: c2 :: c3 :: tail)

/-- Embedding of the encoder's outer loop (src/lib.rs:52-77): one line per
45-byte chunk, prefixed by `encode_char(chunk.len() as u8)` (error position
`(cur_line, 0)`), followed by the group characters; a newline `10` is pushed
between lines exactly when another chunk follows (`line_chunks.peek()`), and
`cur_line` is incremented for the next line. -/
def encodeLines : List (List Nat) → Nat → Except UUEncodeError (List Nat)
  | [], _ => .ok []
  | lc :: rest, cur_line =>
    match encode_char (lc.length % 256) with
    | none => .error ⟨cur_line, 0, invalidMsg (lc.length % 256)⟩
    | some pc =>
      match encodeLineGroups (chunksList 3 lc) cur_line 0 with
      | .error er => .error er
      | .ok body =>
        match rest with
        | [] => .ok (pc :: body)
        | _ :: _ =>
          match encodeLines rest (cur_line + 1) with
          | .error er => .error er
          | .ok tail => .ok (pc :: body ++ 10 :: tail)

/-- Embedding of `uuencode` (src/lib.rs:47-80): encode the chunks of 45 bytes
(`data.chunks(45)` yields no chunk for empty input), starting at line 0. -/
def uuencode (data : List Nat) : Except UUEncodeError (List Nat) :=
  encodeLines (chunksList 45 data) 0

/-- Result of the decoder's inner loop: the bytes pushed and the number of
input characters consumed, an error, or the `copy_from_slice` panic. -/
inductive GroupsResult where
  | ok (bytes : List Nat) (consumed : Nat)
  | err (er : UUEncodeError)
  | crash
deriving Repr, DecidableEq

/-- Embedding of the decoder's inner loop (src/lib.rs:118-143).  The loop is a
do-while: the body always runs once.  `d` stands for
`output_char_count - cur_output_char` (so the initial call uses
`d = output_char_count`); the source's tests `cur_output_char + 1 <
output_char_count`, `cur_output_char + 2 < output_char_count` and the break
test `cur_output_char + 3 >= output_char_count` become `2 ≤ d`, `3 ≤ d` and
`d ≤ 3`.  Each iteration takes four characters; if fewer remain,
`chunk[..].copy_from_slice(&input_chunk)` panics (`crash`).  `byte0` is pushed
unconditionally; `byte2`/`byte3` only under the running-length tests.  Rust's
`u8` left shifts wrap, hence the `% 256`. -/
def decodeGroups (d : Nat) (input : List Nat) (cur_in line : Nat) : GroupsResult :=
  match input with
  | i0 :: i1 :: i2 :: i3 :: rest =>
    match decode_char i0 with
    | none => .err ⟨line, cur_in, invalidMsg i0⟩
    | some b0 =>
      match decode_char i1 with
      | none => .err ⟨line, cur_in + 1, invalidMsg i1⟩
      | some b1 =>
        match decode_char i2 with
        | none => .err ⟨line, cur_in + 2, invalidMsg i2⟩
        | some b2 =>
          match decode_char i3 with
          | none => .err ⟨line, cur_in + 3, invalidMsg i3⟩
          | some b3 =>
            let out0 := (b0 <<< 2) % 256 ||| (b1 >>> 4)
            let out1 := (b1 <<< 4) % 256 ||| (b2 >>> 2)
            let out2 := (b2 <<< 6) % 256 ||| b3
            match d with
            | 0 => .ok [out0] 4
            | 1 => .ok [out0] 4
            | 2 => .ok [out0, out1] 4
            | 3 => .ok [out0, out1, out2] 4
            | k + 4 =>
              match decodeGroups (k + 1) rest (cur_in + 4) line with
              | .ok bs consumed => .ok (out0 :: out1 :: out2 :: bs) (4 + consumed)
              | r => r
  | _ => .crash
termination_by d
decreasing_by omega

/-- Outcome of `uudecode`: `Ok`, `Err`, or the Rust panic raised by
`copy_from_slice` on a short final group. -/
inductive DecodeResult where
  | ok (bytes : List Nat)
  | err (er : UUEncodeError)
  | crash
deriving Repr, DecidableEq

/-- Embedding of the decoder's outer loop (src/lib.rs:105-146): read one
length character (error position `(cur_line, 0)`), run the group loop, then
discard one following character (the newline, if any) and continue on the next
line with the accumulated output. -/
def decodeLines (input : List Nat) (cur_line : Nat) (acc : List Nat) : DecodeResult :=
  match input with
  | [] => .ok acc
  | ch :: rest =>
    match decode_char ch with
    | none => .err ⟨cur_line, 0, invalidMsg ch⟩
    | some count =>
      match decodeGroups count rest 0 cur_line with
      | .crash => .crash
      | .err er => .err er
      | .ok bytes consumed => decodeLines ((rest.drop consumed).drop 1) (cur_line + 1) (acc ++ bytes)
termination_by input.length
decreasing_by simp [List.length_drop]; omega

/-- Embedding of `uudecode` (src/lib.rs:98-147): decode starting at line 0
with an empty output buffer. -/
def uudecode (data : List Nat) : DecodeResult :=
  decodeLines data 0 []

/-- The character actually emitted by `encode_char` for an in-range value:
backtick `96` for `0`, else `v + 32`. -/
def encVal (v : Nat) : Nat := if v = 0 then 96 else v + 32

/-- The four 6-bit units the encoder derives from a padded 3-byte group. -/
def groupUnits (b0 b1 b2 : Nat) : List Nat :=
  [(b0 >>> 2) &&& 63,
   ((b0 <<< 4) % 256 ||| (b1 >>> 4)) &&& 63,
   ((b1 <<< 2) % 256 ||| (b2 >>> 6)) &&& 63,
   b2 &&& 63]

/-- The four characters the encoder emits for one 3-byte group. -/
def groupChars (b0 b1 b2 : Nat) : List Nat := (groupUnits b0 b1 b2).map encVal

/-- The characters the encoder emits for one chunk of at most three bytes. -/
def chunkChars (c : List Nat) : List Nat :=
  groupChars (padTo3 c).1 (padTo3 c).2.1 (padTo3 c).2.2

/-- Concatenation of a list of lists. -/
def joinAll : List (List Nat) → List Nat
  | [] => []
  | c :: cs => c ++ joinAll cs

/-- The data characters of the line encoding the byte chunk `t`. -/
def bodyChars (t : List Nat) : List Nat := joinAll ((chunksList 3 t).map chunkChars)

/-- The full line (length character followed by data characters) encoding the
byte chunk `lc`. -/
def lineOf (lc : List Nat) : List Nat := encVal (lc.length % 256) :: bodyChars lc

/-- The whole encoder output for a list of 45-byte chunks: lines joined by a
single newline `10`, with no trailing newline. -/
def linesOut : List (List Nat) → List Nat
  | [] => []
  | [lc] => lineOf lc
  | lc :: rest => lineOf lc ++ 10 :: linesOut rest

/-- Offset of line `n`'s first character inside `linesOut cs`. -/
def lineStart : List (List Nat) → Nat → Nat
  | _, 0 => 0
  | [], _ + 1 => 0
  | lc :: rest, n + 1 => (lineOf lc).length + 1 + lineStart rest n

/-! ### Arithmetic helper lemmas -/

/-- Bitwise or of disjoint operands is addition. -/
theorem lorAddOfLt (n a b : Nat) (ha : a % 2 ^ n = 0) (hb : b < 2 ^ n) : a ||| b = a + b := by
  obtain ⟨c, rfl⟩ := Nat.dvd_of_mod_eq_zero ha
  exact (Nat.mul_add_lt_is_or hb c).symm

/-- Disjoint or, specialised to a low part below 4. -/
theorem lorAdd4 (a b : Nat) (ha : a % 4 = 0) (hb : b < 4) : a ||| b = a + b :=
  lorAddOfLt 2 a b ha hb

/-- Disjoint or, specialised to a low part below 16. -/
theorem lorAdd16 (a b : Nat) (ha : a % 16 = 0) (hb : b < 16) : a ||| b = a + b :=
  lorAddOfLt 4 a b ha hb

/-- Disjoint or, specialised to a low part below 64. -/
theorem lorAdd64 (a b : Nat) (ha : a % 64 = 0) (hb : b < 64) : a ||| b = a + b :=
  lorAddOfLt 6 a b ha hb

/-- Masking with `0x3F` is reduction modulo 64. -/
theorem and63 (x : Nat) : x &&& 63 = x % 64 := Nat.and_pow_two_sub_one_eq_mod x 6

/-- Decoding the first unit pair recovers the first byte of a group. -/
theorem dec0 (b0 b1 : Nat) (h0 : b0 < 256) (h1 : b1 < 256) :
    (((b0 >>> 2) &&& 63) <<< 2) % 256 ||| ((((b0 <<< 4) % 256 ||| (b1 >>> 4)) &&& 63) >>> 4) = b0 := by
  simp only [and63, Nat.shiftLeft_eq, Nat.shiftRight_eq_div_pow]
  rw [lorAdd16 (b0 * 2 ^ 4 % 256) (b1 / 2 ^ 4) (by omega) (by omega)]
  rw [lorAdd4 _ _ (by omega) (by omega)]
  omega

/-- Decoding the second unit pair recovers the second byte of a group. -/
theorem dec1 (b0 b1 b2 : Nat) (h1 : b1 < 256) (h2 : b2 < 256) :
    ((((b0 <<< 4) % 256 ||| (b1 >>> 4)) &&& 63) <<< 4) % 256 |||
      ((((b1 <<< 2) % 256 ||| (b2 >>> 6)) &&& 63) >>> 2) = b1 := by
  simp only [and63, Nat.shiftLeft_eq, Nat.shiftRight_eq_div_pow]
  rw [lorAdd16 (b0 * 2 ^ 4 % 256) (b1 / 2 ^ 4) (by omega) (by omega)]
  rw [lorAdd4 (b1 * 2 ^ 2 % 256) (b2 / 2 ^ 6) (by omega) (by omega)]
  rw [lorAdd16 _ _ (by omega) (by omega)]
  omega

/-- Decoding the third unit pair recovers the third byte of a group. -/
theorem dec2 (b1 b2 : Nat) (h2 : b2 < 256) :
    ((((b1 <<< 2) % 256 ||| (b2 >>> 6)) &&& 63) <<< 6) % 256 ||| (b2 &&& 63) = b2 := by
  simp only [and63, Nat.shiftLeft_eq, Nat.shiftRight_eq_div_pow]
  rw [lorAdd4 (b1 * 2 ^ 2 % 256) (b2 / 2 ^ 6) (by omega) (by omega)]
  rw [lorAdd64 _ _ (by omega) (by omega)]
  omega

/-! ### Character-level lemmas -/

/-- `encode_char` succeeds on every value up to 223 and yields `encVal`. -/
theorem encode_char_eq (v : Nat) (hv : v ≤ 223) : encode_char v = some (encVal v) := by
  unfold encode_char encVal
  by_cases h : v = 0
  · simp [h]
  · rw [if_neg h, if_neg h, if_pos (by omega)]

/-- `encode_char` always succeeds on a masked unit. -/
theorem encode_char_and63 (x : Nat) : encode_char (x &&& 63) = some (encVal (x &&& 63)) :=
  encode_char_eq _ (Nat.le_trans Nat.and_le_right (by omega))

/-- `decode_char` inverts `encVal` on 6-bit units. -/
theorem decode_encVal (u : Nat) (hu : u ≤ 63) : decode_char (encVal u) = some u := by
  unfold decode_char encVal
  by_cases h : u = 0
  · simp [h]
  · rw [if_neg h, if_neg (by omega), if_pos (by omega)]
    simp

/-- `decode_char` inverts `encVal` on a masked unit. -/
theorem decode_encVal_and63 (x : Nat) : decode_char (encVal (x &&& 63)) = some (x &&& 63) :=
  decode_encVal _ Nat.and_le_right

/-- `encVal` of a 6-bit unit is backtick or lies in `0x21`–`0x5F`. -/
theorem encVal_cases (u : Nat) (hu : u ≤ 63) : (33 ≤ encVal u ∧ encVal u ≤ 95) ∨ encVal u = 96 := by
  unfold encVal
  split <;> omega

/-! ### Chunk-list lemmas -/

/-- Custom induction: recursion on the tail beyond a 3-element chunk. -/
theorem dropRec3 {motive : List Nat → Prop} (h1 : motive [])
    (h2 : ∀ x xs, motive (xs.drop 2) → motive (x :: xs)) (l : List Nat) : motive l := by
  have key : ∀ (k : Nat) (l : List Nat), l.length ≤ k → motive l := by
    intro k
    induction k with
    | zero =>
      intro l hl
      have hnil : l = [] := by cases l <;> simp_all
      rw [hnil]; exact h1
    | succ k ih =>
      intro l hl
      cases l with
      | nil => exact h1
      | cons x xs =>
        exact h2 x xs (ih _ (by simp only [List.length_drop]; simp at hl; omega))
  exact key l.length l le_rfl

/-- One step of `chunksList` on a non-empty list. -/
theorem chunksList_cons (n : Nat) (hn : 1 ≤ n) (x : α) (xs : List α) :
    chunksList n (x :: xs) = (x :: xs).take n :: chunksList n ((x :: xs).drop n) := by
  obtain ⟨m, rfl⟩ : ∃ m, n = m + 1 := ⟨n - 1, by omega⟩
  simp only [chunksList, List.take_succ_cons, List.drop_succ_cons, Nat.add_sub_cancel]

/-- Concatenating the chunks returns the original list. -/
theorem chunksList_join (n : Nat) (l : List Nat) : joinAll (chunksList n l) = l := by
  have key : ∀ (k : Nat) (l : List Nat), l.length ≤ k → joinAll (chunksList n l) = l := by
    intro k
    induction k with
    | zero =>
      intro l hl
      have hnil : l = [] := by cases l <;> simp_all
      rw [hnil]; simp [chunksList, joinAll]
    | succ k ih =>
      intro l hl
      cases l with
      | nil => simp [chunksList, joinAll]
      | cons x xs =>
        simp only [chunksList, joinAll]
        rw [ih (xs.drop (n - 1)) (by simp only [List.length_drop]; simp at hl; omega)]
        simp [List.take_append_drop]
  exact key l.length l le_rfl

/-- Every chunk is non-empty, has length at most `n`, and draws its elements
from the original list. -/
theorem chunksList_props (n : Nat) (hn : 1 ≤ n) :
    ∀ (l c : List α), c ∈ chunksList n l → c ≠ [] ∧ c.length ≤ n ∧ ∀ x ∈ c, x ∈ l := by
  have key : ∀ (k : Nat) (l : List α), l.length ≤ k →
      ∀ c ∈ chunksList n l, c ≠ [] ∧ c.length ≤ n ∧ ∀ x ∈ c, x ∈ l := by
    intro k
    induction k with
    | zero =>
      intro l hl
      have hnil : l = [] := by cases l <;> simp_all
      rw [hnil]; simp [chunksList]
    | succ k ih =>
      intro l hl c hc
      cases l with
      | nil => simp [chunksList] at hc
      | cons x xs =>
        simp only [chunksList, List.mem_cons] at hc
        rcases hc with rfl | hc
        · refine ⟨by simp, by simp [List.length_take]; omega, ?_⟩
          intro y hy
          rcases List.mem_cons.mp hy with rfl | hy
          · exact List.mem_cons_self _ _
          · exact List.mem_cons_of_mem _ (List.take_subset _ _ hy)
        · obtain ⟨hne, hlen, hmem⟩ :=
            ih (xs.drop (n - 1)) (by simp only [List.length_drop]; simp at hl; omega) c hc
          exact ⟨hne, hlen, fun y hy =>
            List.mem_cons_of_mem _ (List.drop_subset _ _ (hmem y hy))⟩
  exact fun l => key l.length l le_rfl

/-- The number of 3-chunks of a list. -/
theorem chunksList3_length (t : List Nat) :
    (chunksList 3 t).length = (t.length + 2) / 3 := by
  induction t using dropRec3 with
  | h1 => simp [chunksList]
  | h2 x xs ih =>
    simp only [chunksList, List.length_cons, ih, List.length_drop]
    omega

/-! ### Encoder characterisation -/

/-- Each chunk contributes exactly four characters. -/
theorem chunkChars_length (c : List Nat) : (chunkChars c).length = 4 := by
  simp [chunkChars, groupChars, groupUnits]

/-- Length of the data characters of a line. -/
theorem bodyChars_length (t : List Nat) :
    (bodyChars t).length = 4 * (chunksList 3 t).length := by
  unfold bodyChars
  generalize chunksList 3 t = cs
  induction cs with
  | nil => simp [joinAll]
  | cons c cs ih => simp [joinAll, ih, chunkChars_length]; omega

/-- The inner encoder loop never fails and produces the chunk characters. -/
theorem encodeLineGroups_eq (cs : List (List Nat)) (line : Nat) :
    ∀ cur_char : Nat, encodeLineGroups cs line cur_char = .ok (joinAll (cs.map chunkChars)) := by
  induction cs with
  | nil => intro cur_char; rfl
  | cons c rest ih =>
    intro cur_char
    simp only [encodeLineGroups, encode_char_and63, ih, List.map_cons, joinAll,
      chunkChars, groupChars, groupUnits, List.map]
    rfl

/-- The outer encoder loop never fails on chunks of length at most 45 and
produces the newline-joined lines. -/
theorem encodeLines_eq (cs : List (List Nat)) (hcs : ∀ lc ∈ cs, lc.length ≤ 45) :
    ∀ n : Nat, encodeLines cs n = .ok (linesOut cs) := by
  induction cs with
  | nil => intro n; rfl
  | cons lc rest ih =>
    intro n
    have hlen : lc.length % 256 ≤ 223 := by
      have := hcs lc (List.mem_cons_self _ _); omega
    cases rest with
    | nil =>
      simp only [encodeLines, encode_char_eq _ hlen, encodeLineGroups_eq, linesOut, lineOf,
        bodyChars]
    | cons r rs =>
      have hrest := ih (fun x hx => hcs x (List.mem_cons_of_mem _ hx)) (n + 1)
      rw [encodeLines.eq_2, encode_char_eq _ hlen, encodeLineGroups_eq, hrest]
      simp [linesOut, lineOf, bodyChars]

/-- `uuencode` always succeeds and produces `linesOut` of the 45-byte chunks. -/
theorem uuencode_eq (data : List Nat) :
    uuencode data = .ok (linesOut (chunksList 45 data)) :=
  encodeLines_eq _ (fun lc h => (chunksList_props 45 (by omega) data lc h).2.1) 0

/-! ### Character-set lemmas -/

/-- Membership in a concatenation. -/
theorem mem_joinAll (c : Nat) (cs : List (List Nat)) : c ∈ joinAll cs ↔ ∃ l ∈ cs, c ∈ l := by
  induction cs with
  | nil => simp [joinAll]
  | cons a as ih =>
    simp only [joinAll, List.mem_append, ih, List.mem_cons]
    constructor
    · rintro (h | ⟨l, hl, hcl⟩)
      · exact ⟨a, Or.inl rfl, h⟩
      · exact ⟨l, Or.inr hl, hcl⟩
    · rintro ⟨l, rfl | hl, hcl⟩
      · exact Or.inl hcl
      · exact Or.inr ⟨l, hl, hcl⟩

/-- Every character a chunk contributes is backtick or lies in `0x21`–`0x5F`. -/
theorem chunkChars_chars (ch : List Nat) : ∀ c ∈ chunkChars ch, (33 ≤ c ∧ c ≤ 95) ∨ c = 96 := by
  intro c hc
  simp only [chunkChars, groupChars, groupUnits, List.map, List.mem_cons,
    List.not_mem_nil, or_false] at hc
  rcases hc with rfl | rfl | rfl | rfl <;> exact encVal_cases _ Nat.and_le_right

/-- Every character of an encoded line is backtick or lies in `0x21`–`0x5F`. -/
theorem lineOf_chars (lc : List Nat) (hlen : lc.length ≤ 45) :
    ∀ c ∈ lineOf lc, (33 ≤ c ∧ c ≤ 95) ∨ c = 96 := by
  intro c hc
  rcases List.mem_cons.mp hc with rfl | hc
  · have hmod : lc.length % 256 = lc.length := Nat.mod_eq_of_lt (by omega)
    rw [hmod]
    exact encVal_cases _ (by omega)
  · obtain ⟨l, hl, hcl⟩ := (mem_joinAll c _).mp hc
    obtain ⟨ch, _, rfl⟩ := List.mem_map.mp hl
    exact chunkChars_chars ch c hcl

/-- Every character of the full encoder output is a newline, backtick, or lies
in `0x21`–`0x5F`. -/
theorem linesOut_chars (cs : List (List Nat)) (hcs : ∀ lc ∈ cs, lc.length ≤ 45) :
    ∀ c ∈ linesOut cs, c = 10 ∨ (33 ≤ c ∧ c ≤ 95) ∨ c = 96 := by
  induction cs with
  | nil => simp [linesOut]
  | cons lc rest ih =>
    intro c hc
    cases rest with
    | nil =>
      exact Or.inr (lineOf_chars lc (hcs lc (List.mem_cons_self _ _)) c (by simpa [linesOut] using hc))
    | cons r rs =>
      simp only [linesOut, List.mem_append, List.mem_cons] at hc
      rcases hc with h | h | h
      · exact Or.inr (lineOf_chars lc (hcs lc (List.mem_cons_self _ _)) c h)
      · exact Or.inl h
      · exact ih (fun x hx => hcs x (List.mem_cons_of_mem _ hx)) c h

/-- One step of the 3-chunking. -/
theorem chunksList_cons3 (x : Nat) (xs : List Nat) :
    chunksList 3 (x :: xs) = (x :: xs.take 2) :: chunksList 3 (xs.drop 2) := by
  simp only [chunksList]

/-- One step of `bodyChars`. -/
theorem bodyChars_cons (x : Nat) (xs : List Nat) :
    bodyChars (x :: xs) = chunkChars (x :: xs.take 2) ++ bodyChars (xs.drop 2) := by
  unfold bodyChars
  rw [chunksList_cons3]
  simp only [List.map, joinAll]

/-- Decoding the body of one line recovers exactly the line's bytes and
consumes exactly the body characters. -/
theorem decodeGroups_roundtrip : ∀ t : List Nat, (∀ x ∈ t, x < 256) → t ≠ [] →
    ∀ (rest : List Nat) (ci line : Nat),
    decodeGroups t.length (bodyChars t ++ rest) ci line = .ok t (bodyChars t).length := by
  intro t
  induction t using dropRec3 with
  | h1 => intro _ hne; exact absurd rfl hne
  | h2 x xs ih =>
    intro ht _ rest ci line
    have hx : x < 256 := ht x (List.mem_cons_self _ _)
    cases xs with
    | nil =>
      have hbody : bodyChars [x] = [encVal ((x >>> 2) &&& 63),
          encVal (((x <<< 4) % 256 ||| (0 >>> 4)) &&& 63),
          encVal (((0 <<< 2) % 256 ||| (0 >>> 6)) &&& 63),
          encVal (0 &&& 63)] := by
        rw [bodyChars_cons]
        simp only [List.take_nil, List.drop_nil, chunkChars, padTo3, groupChars, groupUnits,
          List.map, bodyChars, chunksList, joinAll, List.append_nil]
      rw [hbody]
      simp only [decodeGroups, decode_encVal_and63, List.cons_append, List.nil_append,
        List.length_cons, List.length_nil]
      rw [dec0 x 0 hx (by omega)]
    | cons y ys =>
      have hy : y < 256 := ht y (by simp)
      cases ys with
      | nil =>
        have hbody : bodyChars [x, y] = [encVal ((x >>> 2) &&& 63),
            encVal (((x <<< 4) % 256 ||| (y >>> 4)) &&& 63),
            encVal (((y <<< 2) % 256 ||| (0 >>> 6)) &&& 63),
            encVal (0 &&& 63)] := by
          rw [bodyChars_cons]
          simp only [List.take_succ_cons, List.take_nil, List.drop_succ_cons, List.drop_nil,
            chunkChars, padTo3, groupChars, groupUnits, List.map, bodyChars, chunksList, joinAll,
            List.append_nil]
        rw [hbody]
        simp only [decodeGroups, decode_encVal_and63, List.cons_append, List.nil_append,
          List.length_cons, List.length_nil]
        rw [dec0 x y hx hy, dec1 x y 0 hy (by omega)]
      | cons z zs =>
        have hz : z < 256 := ht z (by simp)
        cases zs with
        | nil =>
          have hbody : bodyChars [x, y, z] = [encVal ((x >>> 2) &&& 63),
              encVal (((x <<< 4) % 256 ||| (y >>> 4)) &&& 63),
              encVal (((y <<< 2) % 256 ||| (z >>> 6)) &&& 63),
              encVal (z &&& 63)] := by
            rw [bodyChars_cons]
            simp only [List.take_succ_cons, List.take_nil, List.drop_succ_cons, List.drop_nil,
              chunkChars, padTo3, groupChars, groupUnits, List.map, bodyChars, chunksList, joinAll,
              List.append_nil]
          rw [hbody]
          simp only [decodeGroups, decode_encVal_and63, List.cons_append, List.nil_append,
            List.length_cons, List.length_nil]
          rw [dec0 x y hx hy, dec1 x y z hy hz, dec2 y z hz]
        | cons w ws =>
          simp only [List.drop_succ_cons, List.drop_zero] at ih
          have ihh := ih (fun a ha => ht a (by simp [List.mem_cons] at ha ⊢; tauto))
            (by simp) rest (ci + 4) line
          simp only [List.length_cons] at ihh
          rw [bodyChars_cons]
          simp only [List.take_succ_cons, List.take_zero, List.drop_succ_cons, List.drop_zero]
          simp only [chunkChars, padTo3, groupChars, groupUnits, List.map]
          simp only [decodeGroups, decode_encVal_and63, List.cons_append, List.nil_append,
            List.length_cons, List.length_nil, List.length_append]
          rw [ihh]
          rw [dec0 x y hx hy, dec1 x y z hy hz, dec2 y z hz]
          have harith : (bodyChars (w :: ws)).length + 1 + 1 + 1 + 1
              = 4 + (bodyChars (w :: ws)).length := by omega
          rw [harith]

/-- Decoding the full encoder output accumulates exactly the original chunks. -/
theorem decodeLines_ok (cs : List (List Nat))
    (hcs : ∀ lc ∈ cs, lc ≠ [] ∧ lc.length ≤ 45 ∧ ∀ x ∈ lc, x < 256) :
    ∀ (n : Nat) (acc : List Nat), decodeLines (linesOut cs) n acc = .ok (acc ++ joinAll cs) := by
  induction cs with
  | nil => intro n acc; simp [linesOut, decodeLines, joinAll]
  | cons lc rest ih =>
    intro n acc
    obtain ⟨hne, hlen, hbytes⟩ := hcs lc (List.mem_cons_self _ _)
    have hmod : lc.length % 256 = lc.length := Nat.mod_eq_of_lt (by omega)
    have hpre : decode_char (encVal (lc.length % 256)) = some lc.length := by
      rw [hmod]; exact decode_encVal _ (by omega)
    cases rest with
    | nil =>
      have hgroups := decodeGroups_roundtrip lc hbytes hne [] 0 n
      rw [List.append_nil] at hgroups
      simp only [linesOut, lineOf, decodeLines, hpre, hgroups, List.drop_length,
        List.drop_nil, joinAll, List.append_nil]
    | cons r rs =>
      have hgroups := decodeGroups_roundtrip lc hbytes hne (10 :: linesOut (r :: rs)) 0 n
      have htail := ih (fun x hx => hcs x (List.mem_cons_of_mem _ hx)) (n + 1) (acc ++ lc)
      simp only [linesOut, lineOf, List.cons_append, decodeLines, hpre, hgroups,
        List.drop_left, List.drop_succ_cons, List.drop_zero, htail, joinAll]
      simp [List.append_assoc]

/-- C1: round-trip.  For every byte sequence `b` (all bytes below 256),
`uuencode` succeeds with some encoded text `e` and `uudecode e` returns
exactly `b` — including the empty sequence and sequences containing zero
bytes. -/
theorem C1_roundtrip (b : List Nat) (hb : ∀ x ∈ b, x < 256) :
    ∃ e, uuencode b = Except.ok e ∧ uudecode e = DecodeResult.ok b := by
  refine ⟨linesOut (chunksList 45 b), uuencode_eq b, ?_⟩
  unfold uudecode
  rw [decodeLines_ok (chunksList 45 b) ?conds 0 []]
  · rw [chunksList_join 45 b]; simp
  case conds =>
    intro lc hlc
    obtain ⟨h1, h2, h3⟩ := chunksList_props 45 (by omega) b lc hlc
    exact ⟨h1, h2, fun x hx => hb x (h3 x hx)⟩

/-- C1 witness: the round-trip at the concrete input `[0, 97, 0, 255]`, which
contains zero bytes. -/
theorem C1_roundtrip_witness :
    ∃ e, uuencode [0, 97, 0, 255] = Except.ok e ∧ uudecode e = DecodeResult.ok [0, 97, 0, 255] :=
  C1_roundtrip [0, 97, 0, 255] (by decide)

/-- C2: the claim says a truncated line (declared payload longer than the
remaining data characters) yields a typed `UUEncodeError`.  In the code the
group read `chunk[..].copy_from_slice(&input_chunk)` panics instead: on input
`"!"` (declared length 1, no data characters) `uudecode` crashes. -/
theorem C2_truncated_input_panics : uudecode [33] = DecodeResult.crash := by
  simp [uudecode, decodeLines, decodeGroups, decode_char]

/-- C9: the claim says `uudecode` always returns `Ok` or `Err`; in particular
on the single-character input "backtick" (a length-0 line) the group loop body
runs once and the function must still return.  The body does run once, but
`copy_from_slice` panics on the empty group, so `uudecode` crashes instead of
returning. -/
theorem C9_zero_length_line_panics : uudecode [96] = DecodeResult.crash := by
  simp [uudecode, decodeLines, decodeGroups, decode_char]

/-- C3 counterexample: the claim says `encode_char v` fails for every
`v > 63`, but `encode_char 64 = some 96` (checked_add only fails above 223). -/
theorem C3_encode_char_counterexample : 63 < 64 ∧ encode_char 64 = some 96 := by decide

/-- C3 amended: `encode_char 0` is backtick `0x60`; for `1 ≤ v ≤ 63` it
returns `v + 32` (in `0x21`–`0x5F`); it also returns `v + 32` for every
`v ≤ 223`, and fails only for `v > 223` (`u8` `checked_add` overflow). -/
theorem C3_encode_char_amended (v : Nat) :
    encode_char 0 = some 96
    ∧ (1 ≤ v → v ≤ 63 → encode_char v = some (v + 32) ∧ 33 ≤ v + 32 ∧ v + 32 ≤ 95)
    ∧ (1 ≤ v → v ≤ 223 → encode_char v = some (v + 32))
    ∧ (223 < v → encode_char v = none) := by
  unfold encode_char
  refine ⟨rfl, fun h1 h2 => ⟨?_, by omega, by omega⟩, fun h1 h2 => ?_, fun h => ?_⟩
  · rw [if_neg (by omega), if_pos (by omega)]
  · rw [if_neg (by omega), if_pos (by omega)]
  · rw [if_neg (by omega), if_neg (by omega)]

/-- C3 amended witness at `v = 7`, `v = 200` and `v = 224`. -/
theorem C3_encode_char_amended_witness :
    encode_char 7 = some 39 ∧ encode_char 200 = some 232 ∧ encode_char 224 = none :=
  ⟨((C3_encode_char_amended 7).2.1 (by decide) (by decide)).1,
   (C3_encode_char_amended 200).2.2.1 (by decide) (by decide),
   (C3_encode_char_amended 224).2.2.2 (by decide)⟩

/-- C4 counterexample: the claim says every byte outside `0x20`–`0x5F` other
than backtick is rejected, but `0x61` is accepted (`decode_char 97 = some 65`)
and so is the NUL byte (`decode_char 0 = some 0`). -/
theorem C4_decode_char_counterexample :
    (95 < 97 ∧ 97 ≠ 96 ∧ decode_char 97 = some 65) ∧ (0 < 32 ∧ decode_char 0 = some 0) := by
  decide

/-- C4 amended: `decode_char` rejects exactly the bytes `1`–`31`; NUL and
every byte at or above `0x20` (including all bytes above `0x5F`) are
accepted. -/
theorem C4_decode_char_amended (c : Nat) (hc : c < 256) :
    decode_char c = none ↔ (1 ≤ c ∧ c ≤ 31) := by
  unfold decode_char
  by_cases h0 : c = 0 <;> by_cases h96 : c = 96 <;> by_cases h32 : 32 ≤ c <;>
    simp [h0, h96, h32] <;> omega

/-- C4 amended witness at `c = 17`. -/
theorem C4_decode_char_amended_witness : decode_char 17 = none :=
  (C4_decode_char_amended 17 (by decide)).mpr (by decide)

/-- C8: dual-zero acceptance — `decode_char` maps both space (`0x20`) and
backtick (`0x60`) to `0`. -/
theorem C8_dual_zero : decode_char 32 = some 0 ∧ decode_char 96 = some 0 := by decide

/-- C10: the exact domain of `decode_char` — `Some` exactly when `c = 0` or
`c ≥ 32`; NUL and backtick map to `0`; every other accepted byte (including
those above `0x5F`) maps to `c - 32`; `None` exactly for bytes `1`–`31`. -/
theorem C10_decode_char_contract (c : Nat) (hc : c < 256) :
    (decode_char c ≠ none ↔ (c = 0 ∨ 32 ≤ c))
    ∧ decode_char 0 = some 0
    ∧ (32 ≤ c → c ≠ 96 → decode_char c = some (c - 32))
    ∧ decode_char 96 = some 0
    ∧ (decode_char c = none ↔ (1 ≤ c ∧ c ≤ 31)) := by
  unfold decode_char
  by_cases h0 : c = 0 <;> by_cases h96 : c = 96 <;> by_cases h32 : 32 ≤ c <;>
    refine ⟨?_, by norm_num, fun ha hb => ?_, by norm_num, ?_⟩ <;>
    simp [h0, h96, h32] <;> omega

/-- C10 witness at `c = 97` (a byte above `0x5F`, accepted as `65`). -/
theorem C10_decode_char_contract_witness :
    decode_char 97 = some (97 - 32) :=
  (C10_decode_char_contract 97 (by decide)).2.2.1 (by decide) (by decide)

/-- C5 counterexample: the claim says every non-newline character of the
encoder output lies in `0x20`–`0x5F`, but encoding the single zero byte
produces backticks (`0x60`): `uuencode [0] = "!\x60\x60\x60\x60"`. -/
theorem C5_output_range_counterexample :
    uuencode [0] = Except.ok [33, 96, 96, 96, 96] ∧ 96 ∈ [33, 96, 96, 96, 96]
      ∧ (96 : Nat) ≠ 10 ∧ ¬ (32 ≤ 96 ∧ (96 : Nat) ≤ 95) := by
  refine ⟨?_, by decide, by decide, by decide⟩
  rw [uuencode_eq]
  simp [chunksList, linesOut, lineOf, bodyChars, chunkChars, padTo3, groupChars, groupUnits,
    encVal, joinAll]

/-- C5 amended: every character of the encoder output is a newline separator,
or lies in `0x21`–`0x5F`, or is the backtick `0x60` (emitted for zero-valued
6-bit units). -/
theorem C5_output_range_amended (b e : List Nat) (he : uuencode b = Except.ok e) :
    ∀ c ∈ e, c = 10 ∨ (33 ≤ c ∧ c ≤ 95) ∨ c = 96 := by
  rw [uuencode_eq] at he
  injection he with he
  rw [← he]
  exact linesOut_chars _ (fun lc h => (chunksList_props 45 (by omega) b lc h).2.1)

/-- C5 amended witness: the backtick and the character `48` of
`uuencode [65] = [33, 48, 48, 96, 96]` both satisfy the amended range. -/
theorem C5_output_range_amended_witness :
    ((96 : Nat) = 10 ∨ (33 ≤ 96 ∧ (96 : Nat) ≤ 95) ∨ (96 : Nat) = 96)
    ∧ ((48 : Nat) = 10 ∨ (33 ≤ 48 ∧ (48 : Nat) ≤ 95) ∨ (48 : Nat) = 96) :=
  ⟨C5_output_range_amended [65] [33, 48, 48, 96, 96]
    (by rw [uuencode_eq]
        simp [chunksList, linesOut, lineOf, bodyChars, chunkChars, padTo3, groupChars,
          groupUnits, encVal, joinAll, and63]) 96 (by decide),
   C5_output_range_amended [65] [33, 48, 48, 96, 96]
    (by rw [uuencode_eq]
        simp [chunksList, linesOut, lineOf, bodyChars, chunkChars, padTo3, groupChars,
          groupUnits, encVal, joinAll, and63]) 48 (by decide)⟩

/-- C6: encoding exactly 45 bytes yields a single line (no newline anywhere)
whose length-prefix character `77` decodes to `45`; encoding exactly 46 bytes
yields two newline-separated lines, the second starting with the character
`33`, which decodes to `1`, and with no trailing newline (the second line is
non-empty and newline-free). -/
theorem C6_line_chunking (b : List Nat) (hb : ∀ x ∈ b, x < 256) :
    (b.length = 45 → ∃ body, uuencode b = Except.ok (77 :: body)
      ∧ 10 ∉ (77 :: body) ∧ decode_char 77 = some 45)
    ∧ (b.length = 46 → ∃ l1 l2, uuencode b = Except.ok (l1 ++ 10 :: l2)
      ∧ 10 ∉ l1 ∧ 10 ∉ l2 ∧ l2 ≠ [] ∧ l2.head? = some 33 ∧ decode_char 33 = some 1) := by
  constructor
  · intro h45
    cases b with
    | nil => simp at h45
    | cons x xs =>
      have hxs : xs.length = 44 := by simp at h45; omega
      have hchunks : chunksList 45 (x :: xs) = [x :: xs] := by
        simp only [chunksList]
        rw [List.take_of_length_le (by omega), List.drop_eq_nil_of_le (by omega)]
        simp [chunksList]
      refine ⟨bodyChars (x :: xs), ?_, ?_, by decide⟩
      · rw [uuencode_eq, hchunks]
        simp only [linesOut, lineOf]
        norm_num [h45, encVal]
      · intro hmem
        have hchars := lineOf_chars (x :: xs) (by simp [hxs]) 10
        simp only [lineOf] at hchars
        have hmem' : (10 : Nat) ∈ encVal ((x :: xs).length % 256) :: bodyChars (x :: xs) := by
          rcases List.mem_cons.mp hmem with h | h
          · exact absurd h.symm (by norm_num [h45, encVal])
          · exact List.mem_cons_of_mem _ h
        rcases hchars hmem' with ⟨h1, _⟩ | h1 <;> omega
  · intro h46
    cases b with
    | nil => simp at h46
    | cons x xs =>
      have hxs : xs.length = 45 := by simp at h46; omega
      obtain ⟨y, hy⟩ := List.length_eq_one.mp (show (xs.drop 44).length = 1 by simp [hxs])
      have hchunks : chunksList 45 (x :: xs) = [x :: xs.take 44, [y]] := by
        simp only [chunksList]
        rw [hy]
        simp [chunksList]
      refine ⟨lineOf (x :: xs.take 44), lineOf [y], ?_, ?_, ?_, by simp [lineOf], ?_, by decide⟩
      · rw [uuencode_eq, hchunks]
        simp [linesOut]
      · intro hmem
        rcases lineOf_chars (x :: xs.take 44) (by simp [hxs]) 10 hmem with ⟨h1, _⟩ | h1 <;> omega
      · intro hmem
        rcases lineOf_chars [y] (by simp) 10 hmem with ⟨h1, _⟩ | h1 <;> omega
      · simp [lineOf, encVal]

/-- C6 witness at the concrete 46-byte input of zero bytes. -/
theorem C6_line_chunking_witness :
    ∃ l1 l2, uuencode (List.replicate 46 0) = Except.ok (l1 ++ 10 :: l2)
      ∧ 10 ∉ l1 ∧ 10 ∉ l2 ∧ l2 ≠ [] ∧ l2.head? = some 33 ∧ decode_char 33 = some 1 :=
  (C6_line_chunking (List.replicate 46 0)
    (by intro x hx; rw [List.eq_of_mem_replicate hx]; omega)).2 (by simp)

/-- Setting an index inside the left part of an append. -/
theorem setAppendLeft (l1 l2 : List Nat) (p c : Nat) (h : p < l1.length) :
    (l1 ++ l2).set p c = l1.set p c ++ l2 := by
  rw [List.set_append, if_pos h]

/-- Setting an index inside the right part of an append. -/
theorem setAppendRight (l1 l2 : List Nat) (k c : Nat) :
    (l1 ++ l2).set (l1.length + k) c = l1 ++ l2.set k c := by
  rw [List.set_append, if_neg (by omega), Nat.add_sub_cancel_left]

/-- Length of the line body in terms of the chunk's byte count. -/
theorem bodyChars_length_div (u : List Nat) :
    (bodyChars u).length = 4 * ((u.length + 2) / 3) := by
  rw [bodyChars_length, chunksList3_length]

/-- Corrupting one data character of a line makes the group decoder fail at
exactly that offset (relative to `cur_in`), with the invalid-character
message for the corrupt byte. -/
theorem decodeGroups_corrupt : ∀ t : List Nat, (∀ x ∈ t, x < 256) → t ≠ [] →
    ∀ p c : Nat, decode_char c = none → p < (bodyChars t).length →
    ∀ (rest : List Nat) (ci line : Nat),
    decodeGroups t.length ((bodyChars t).set p c ++ rest) ci line
      = .err ⟨line, ci + p, invalidMsg c⟩ := by
  intro t
  induction t using dropRec3 with
  | h1 => intro _ hne; exact absurd rfl hne
  | h2 x xs ih =>
    intro ht _ p c hc hp rest ci line
    by_cases hp4 : p < 4
    · rw [bodyChars_cons]
      rw [setAppendLeft _ _ _ _ (by rw [chunkChars_length]; omega)]
      simp only [chunkChars, groupChars, groupUnits, List.map]
      interval_cases p <;>
        simp only [List.set_cons_zero, List.set_cons_succ, List.cons_append, List.nil_append,
          decodeGroups, decode_encVal_and63, hc] <;> simp
    · rw [bodyChars_cons] at hp ⊢
      have hxs3 : 3 ≤ xs.length := by
        have hlen := bodyChars_length_div (xs.drop 2)
        have hd : (xs.drop 2).length = xs.length - 2 := by simp
        simp only [List.length_append, chunkChars_length] at hp
        omega
      obtain ⟨y, ys, rfl⟩ : ∃ y ys, xs = y :: ys := by
        cases xs with
        | nil => exact absurd hxs3 (by simp)
        | cons a as => exact ⟨a, as, rfl⟩
      obtain ⟨z, zs, rfl⟩ : ∃ z zs, ys = z :: zs := by
        cases ys with
        | nil => exact absurd hxs3 (by simp)
        | cons a as => exact ⟨a, as, rfl⟩
      obtain ⟨w, ws, rfl⟩ : ∃ w ws, zs = w :: ws := by
        cases zs with
        | nil => exact absurd hxs3 (by simp)
        | cons a as => exact ⟨a, as, rfl⟩
      simp only [List.drop_succ_cons, List.drop_zero] at ih hp ⊢
      simp only [List.take_succ_cons, List.take_zero] at hp ⊢
      obtain ⟨k, rfl⟩ : ∃ k, p = 4 + k := ⟨p - 4, by omega⟩
      have hkb : k < (bodyChars (w :: ws)).length := by
        simp only [List.length_append, chunkChars_length] at hp
        omega
      have hset := setAppendRight (chunkChars (x :: y :: z :: [])) (bodyChars (w :: ws)) k c
      rw [chunkChars_length] at hset
      rw [hset]
      simp only [chunkChars, groupChars, groupUnits, List.map]
      have ihh := ih (fun a ha => ht a (by simp [List.mem_cons] at ha ⊢; tauto)) (by simp)
        k c hc hkb rest (ci + 4) line
      simp only [List.length_cons] at ihh
      simp only [List.cons_append, List.nil_append, decodeGroups, decode_encVal_and63,
        List.length_cons]
      rw [ihh]
      have harith : ci + 4 + k = ci + (4 + k) := by omega
      rw [harith]

/-- Corrupting one data character of line `n` makes the decoder fail at line
`startLine + n` with the character offset inside that line's data portion. -/
theorem decodeLines_corrupt : ∀ cs : List (List Nat),
    (∀ lc ∈ cs, lc ≠ [] ∧ lc.length ≤ 45 ∧ ∀ x ∈ lc, x < 256) →
    ∀ n p c : Nat, decode_char c = none → n < cs.length →
    p < (bodyChars (cs.getD n [])).length →
    ∀ (startLine : Nat) (acc : List Nat),
    decodeLines ((linesOut cs).set (lineStart cs n + 1 + p) c) startLine acc
      = .err ⟨startLine + n, p, invalidMsg c⟩ := by
  intro cs
  induction cs with
  | nil => intro _ n _ _ _ hn; simp at hn
  | cons lc rest ih =>
    intro hcs n p c hc hn hp startLine acc
    obtain ⟨hne, hlen, hbytes⟩ := hcs lc (List.mem_cons_self _ _)
    have hmod : lc.length % 256 = lc.length := Nat.mod_eq_of_lt (by omega)
    have hpre : decode_char (encVal (lc.length % 256)) = some lc.length := by
      rw [hmod]; exact decode_encVal _ (by omega)
    cases n with
    | zero =>
      simp only [List.getD_cons_zero] at hp
      have hidx : lineStart (lc :: rest) 0 + 1 + p = p + 1 := by
        simp only [lineStart]; omega
      rw [hidx]
      cases rest with
      | nil =>
        have hgroups := decodeGroups_corrupt lc hbytes hne p c hc hp [] 0 startLine
        rw [List.append_nil] at hgroups
        simp only [linesOut, lineOf, List.set_cons_succ, decodeLines, hpre, hgroups]
        simp
      | cons r rs =>
        have hgroups := decodeGroups_corrupt lc hbytes hne p c hc hp
          (10 :: linesOut (r :: rs)) 0 startLine
        simp only [linesOut, lineOf, List.cons_append, List.set_cons_succ]
        rw [setAppendLeft _ _ _ _ hp]
        simp only [decodeLines, hpre, hgroups]
        simp
    | succ m =>
      cases rest with
      | nil => simp at hn
      | cons r rs =>
        simp only [lineStart]
        have hidx : (lineOf lc).length + 1 + lineStart (r :: rs) m + 1 + p
            = (lineOf lc).length + ((lineStart (r :: rs) m + 1 + p) + 1) := by omega
        rw [hidx]
        simp only [linesOut]
        rw [setAppendRight, List.set_cons_succ]
        have hgroups := decodeGroups_roundtrip lc hbytes hne
          (10 :: (linesOut (r :: rs)).set (lineStart (r :: rs) m + 1 + p) c) 0 startLine
        simp only [lineOf, List.cons_append, decodeLines, hpre, hgroups, List.drop_left,
          List.drop_succ_cons, List.drop_zero]
        have htail := ih (fun u hu => hcs u (List.mem_cons_of_mem _ hu)) m p c hc
          (by simp at hn ⊢; omega) (by simpa using hp) (startLine + 1) (acc ++ lc)
        rw [htail]
        have harith : startLine + 1 + m = startLine + (m + 1) := by omega
        rw [harith]

/-- C7: error locality.  Encode any byte sequence `b`; pick line `n` and an
offset `p` inside that line's data portion; overwrite the character there
with any invalid byte `c`.  Decoding then fails with an error whose `line`
field is `n` and whose `character` field is `p`. -/
theorem C7_error_locality (b : List Nat) (hb : ∀ x ∈ b, x < 256) (n p c : Nat)
    (hc : decode_char c = none) (hn : n < (chunksList 45 b).length)
    (hp : p < 4 * (chunksList 3 ((chunksList 45 b).getD n [])).length) :
    ∃ e, uuencode b = Except.ok e ∧
      uudecode (e.set (lineStart (chunksList 45 b) n + 1 + p) c)
        = DecodeResult.err ⟨n, p, invalidMsg c⟩ := by
  refine ⟨_, uuencode_eq b, ?_⟩
  unfold uudecode
  rw [decodeLines_corrupt (chunksList 45 b) ?conds n p c hc hn ?hp 0 []]
  · rw [Nat.zero_add]
  case conds =>
    intro lc hlc
    obtain ⟨h1, h2, h3⟩ := chunksList_props 45 (by omega) b lc hlc
    exact ⟨h1, h2, fun x hx => hb x (h3 x hx)⟩
  case hp =>
    rw [bodyChars_length]
    exact hp

/-- C7 witness: corrupting the second data character of `uuencode "cat"`
(offset `p = 1` of line `0`) with the invalid byte `1`. -/
theorem C7_error_locality_witness :
    ∃ e, uuencode [99, 97, 116] = Except.ok e ∧
      uudecode (e.set (lineStart (chunksList 45 [99, 97, 116]) 0 + 1 + 1) 1)
        = DecodeResult.err ⟨0, 1, invalidMsg 1⟩ :=
  C7_error_locality [99, 97, 116] (by decide) 0 1 1 (by decide)
    (by simp [chunksList]) (by simp [chunksList])
